import Mathlib

/-!
# Verification of the ai-scheduler core (`src/scheduler.py`)

Shallow embedding of the slot-search engine: candidate-date generation from a
recurrence rule (`generate_candidate_dates`), per-day availability search
(`find_available_slot_on_day`), buffer-aware conflict detection
(`has_conflict`), nearby-week fallback (`find_slot_on_nearby_dates`) and the
orchestrator (`find_optimal_slots`).

Modelling choices:
* Instants are minutes since 1970-01-01T00:00 in the single reference
  timezone (the source normalizes everything to one zone before comparing;
  arithmetic and comparison in the source are then plain minute arithmetic).
  1970-01-01 was a Thursday, so a day number `d` is a Thursday iff `d % 7 = 0`
  and a Friday iff `d % 7 = 1`.
* Python's `datetime`/`dateutil` Gregorian calendar arithmetic is modelled by
  the standard civil-calendar conversions `daysFromCivil` / `civilFromDays`
  (floor-division form of the classic algorithm) and `addMonths`
  (`relativedelta(months=k)`: add to the month, clamp the day).
* Python loops (`while`, `for ... return`) become structural recursion; the
  `while` loops take an explicit `Nat` fuel computed from the loop bounds that
  strictly exceeds the number of iterations the loop can perform, so the fuel
  never runs out (`searchLoop_fuel_stable` below justifies this for the day
  scan).
-/

/-- Models a `datetime.time` value: the preferred start time of day.  A valid Python
time has `hour < 24` and `minute < 60`; the code only reads `.hour` for the
business-hours test and `hour*60+minute` when combining with a date. -/
structure TimeOfDay where
  hour : Nat
  minute : Nat
deriving DecidableEq, Repr

/-- A busy calendar event: `{'summary': ..., 'start': ..., 'end': ...}`. -/
structure BusyEvent where
  summary : String
  start : Int
  «end» : Int
deriving DecidableEq, Repr

/-- A proposed slot: `{'start': ..., 'end': ...}`. -/
structure Slot where
  start : Int
  «end» : Int
deriving DecidableEq, Repr

/-! ## Civil (Gregorian) calendar arithmetic

Models the calendar used by `datetime` / `dateutil.rrule` /
`relativedelta`. -/

/-- Gregorian leap-year test. -/
def isLeap (y : Int) : Bool :=
  y % 4 = 0 && (y % 100 ≠ 0 || y % 400 = 0)

/-- Number of days in month `m` (1–12) of year `y`. -/
def daysInMonth (y m : Int) : Int :=
  if m = 2 then (if isLeap y then 29 else 28)
  else if m = 4 ∨ m = 6 ∨ m = 9 ∨ m = 11 then 30
  else 31

/-- Day number (days since 1970-01-01) of the civil date `y-m-d`,
floor-division form of the standard civil-from-days algorithm. -/
def daysFromCivil (y m d : Int) : Int :=
  let y2 := if m ≤ 2 then y - 1 else y
  let era := y2 / 400
  let yoe := y2 - era * 400
  let doy := (153 * (m + (if m > 2 then -3 else 9)) + 2) / 5 + d - 1
  let doe := yoe * 365 + yoe / 4 - yoe / 100 + doy
  era * 146097 + doe - 719468

/-- Civil date `(y, m, d)` of a day number (days since 1970-01-01). -/
def civilFromDays (z0 : Int) : Int × Int × Int :=
  let z := z0 + 719468
  let era := z / 146097
  let doe := z - era * 146097
  let yoe := (doe - doe / 1460 + doe / 36524 - doe / 146096) / 365
  let y := yoe + era * 400
  let doy := doe - (365 * yoe + yoe / 4 - yoe / 100)
  let mp := (5 * doy + 2) / 153
  let d := doy - (153 * mp + 2) / 5 + 1
  let m := mp + (if mp < 10 then 3 else -9)
  (if m ≤ 2 then y + 1 else y, m, d)

/-- Day number of the first Thursday of month `(y, m)`: the smallest day
number `t` with `t % 7 = 0` at or after the first of the month
(models `rrule(MONTHLY, byweekday=[TH(1)])`'s per-month pick). -/
def firstThursdayDay (y m : Int) : Int :=
  let f := daysFromCivil y m 1
  f + (-f) % 7

/-- Day number of the last Friday of month `(y, m)`: the largest day number
`t` with `t % 7 = 1` at or before the last of the month
(models `rrule(MONTHLY, byweekday=[FR(-1)])`'s per-month pick). -/
def lastFridayDay (y m : Int) : Int :=
  let l := daysFromCivil y m (daysInMonth y m)
  l - (l - 1) % 7

/-- Computes `t + relativedelta(months=k)`: calendar-month addition with day-of-month
clamping, preserving the time of day. -/
def addMonths (t k : Int) : Int :=
  let tod := t % 1440
  let ymd := civilFromDays (t / 1440)
  let mi := 12 * ymd.1 + (ymd.2.1 - 1) + k
  let y2 := mi / 12
  let m2 := mi % 12 + 1
  let d2 := min ymd.2.2 (daysInMonth y2 m2)
  daysFromCivil y2 m2 d2 * 1440 + tod

/-- Computes `date.date()` as an instant: midnight of the day containing `t`. -/
def dateMidnight (t : Int) : Int := t - t % 1440

/-! ## Recurrence generation (`generate_candidate_dates`)

`dateutil.rrule(freq, dtstart, until)` yields, in ascending order, exactly the
occurrences of the rule that are `≥ dtstart` and `≤ until`; every occurrence
carries `dtstart`'s time of day. -/

/-- Models `rrule(WEEKLY, interval=...)`: occurrences `dtstart, dtstart+step, ...`
while `≤ until`.  `fuel` bounds the recursion; callers pass
`(until - start).toNat / step + 2`, which strictly exceeds the number of
occurrences, so the list is never truncated. -/
def weeklyAux (untl step : Int) : Nat → Int → List Int
  | 0, _ => []
  | fuel + 1, current =>
    if current > untl then []
    else current :: weeklyAux untl step fuel (current + step)

/-- Monthly occurrences: for each month starting at `(y, m)`, the day picked
by `pick` (first-Thursday or last-Friday) at `dtstart`'s time of day;
occurrences before `dtstart` are skipped, generation stops at the first
occurrence past `until` (occurrences increase month over month).  `fuel`
bounds the months scanned; callers pass a bound strictly exceeding the number
of months that can carry an occurrence `≤ until`. -/
def monthlyAux (pick : Int → Int → Int) (dtstart untl : Int) :
    Nat → Int → Int → List Int
  | 0, _, _ => []
  | fuel + 1, y, m =>
    let t := pick y m * 1440 + dtstart % 1440
    if t > untl then []
    else
      let rest := monthlyAux pick dtstart untl fuel
        (if m = 12 then y + 1 else y) (if m = 12 then 1 else m + 1)
      if t ≥ dtstart then t :: rest else rest

/-- Locates the month containing day number `z` by walking forward month by
month from `z`'s 400-year-aligned anchor (the Gregorian calendar repeats
every 146097 days = 400 years, and 1970-01-01 opens such a cycle).  The walk
stops at the first month whose successor starts after `z`; `monthOf_spec`
proves the result is exactly the month containing `z`.  The fuel 5300
exceeds the at most 4800 months of one cycle. -/
def monthWalkAux (z : Int) : Nat → Int → Int → Int × Int
  | 0, y, m => (y, m)
  | fuel + 1, y, m =>
    if z < daysFromCivil y m 1 + daysInMonth y m then (y, m)
    else monthWalkAux z fuel (if m = 12 then y + 1 else y) (if m = 12 then 1 else m + 1)

/-- The civil month `(year, month)` containing day number `z` (the month a
`datetime` with that date belongs to). -/
def monthOf (z : Int) : Int × Int :=
  monthWalkAux z 5300 (1970 + 400 * (z / 146097)) 1

/-- Models `rrule(MONTHLY, byweekday=[...], dtstart, until)`: iterate months
from `dtstart`'s month (located by `monthOf`, proved correct by
`monthOf_spec`).  Each month advances the occurrence by at least 28 days, so
`(until - dtstart).toNat / 40320 + 6` months always suffice. -/
def monthlyDates (pick : Int → Int → Int) (dtstart untl : Int) : List Int :=
  let ym := monthOf (dtstart / 1440)
  monthlyAux pick dtstart untl ((untl - dtstart).toNat / 40320 + 6) ym.1 ym.2

/-- Embeds `generate_candidate_dates(start_date, end_date, recurrence)` from
`src/scheduler.py`: string dispatch on the pattern; any unrecognized pattern
falls into the final `else:  # Weekly` branch. -/
def generate_candidate_dates (start_date end_date : Int) (recurrence : String) :
    List Int :=
  if recurrence = "First Thursday of each month" then
    monthlyDates firstThursdayDay start_date end_date
  else if recurrence = "Last Friday of each month" then
    monthlyDates lastFridayDay start_date end_date
  else if recurrence = "Every two weeks" then
    weeklyAux end_date 20160 ((end_date - start_date).toNat / 20160 + 2) start_date
  else
    weeklyAux end_date 10080 ((end_date - start_date).toNat / 10080 + 2) start_date

/-! ## Conflict detection (`has_conflict`) -/

/-- The `for event in existing_events` loop of `has_conflict`: skip events
with `event.end < slot_start or event.start > slot_end`, report a conflict on
`slot_start < event.end and slot_end > event.start`. -/
def conflictLoop (slot_start slot_end : Int) : List BusyEvent → Bool
  | [] => false
  | e :: rest =>
    if e.«end» < slot_start ∨ e.start > slot_end then
      conflictLoop slot_start slot_end rest
    else if slot_start < e.«end» ∧ slot_end > e.start then true
    else conflictLoop slot_start slot_end rest

/-- Embeds `has_conflict(slot, existing_events)` from `src/scheduler.py`:
expand the slot by the 15-minute buffer on each side, then scan the events. -/
def has_conflict (slot : Slot) (existing_events : List BusyEvent) : Bool :=
  let slot_start := slot.start - 15
  let slot_end := slot.«end» + 15
  conflictLoop slot_start slot_end existing_events

/-- Modelled from the spec (§4.3), for the refinement claim about the coarse
pre-check: the plain detector that applies the open-interval overlap test
`expandedStart < event.end AND expandedEnd > event.start` to every event,
with no skip. -/
def plain_conflict (slot : Slot) (existing_events : List BusyEvent) : Bool :=
  existing_events.any fun e =>
    decide (slot.start - 15 < e.«end» ∧ slot.«end» + 15 > e.start)

/-! ## Day availability search (`find_available_slot_on_day`) -/

/-- The starting instant of the day scan: `preferred_datetime` when
`9 <= preferred_time.hour < 17`, else `day_start` (09:00). -/
def search_start (date : Int) (preferred_time : TimeOfDay) : Int :=
  let day_start := dateMidnight date + 9 * 60
  let preferred_datetime :=
    dateMidnight date + ((preferred_time.hour : Int) * 60 + preferred_time.minute)
  if 9 ≤ preferred_time.hour ∧ preferred_time.hour < 17 then preferred_datetime
  else day_start

/-- The `while current_time < day_end` loop: at each position form the slot
`[current, current + duration]`; stop (`break`) when its end passes `day_end`;
return it if conflict-free; otherwise advance 30 minutes.  `fuel` bounds the
iterations; `find_available_slot_on_day` passes
`(day_end - start).toNat / 30 + 2`, which strictly exceeds the number of
iterations (`searchLoop_fuel_stable`), so the fuel never runs out. -/
def searchLoop (day_end duration : Int) (events : List BusyEvent) :
    Nat → Int → Option Slot
  | 0, _ => none
  | fuel + 1, current =>
    if current < day_end then
      if current + duration > day_end then none
      else if has_conflict ⟨current, current + duration⟩ events then
        searchLoop day_end duration events fuel (current + 30)
      else some ⟨current, current + duration⟩
    else none

/-- Embeds `find_available_slot_on_day(date, preferred_time, duration,
existing_events)` from `src/scheduler.py`. -/
def find_available_slot_on_day (date : Int) (preferred_time : TimeOfDay)
    (duration : Int) (existing_events : List BusyEvent) : Option Slot :=
  let day_end := dateMidnight date + 17 * 60
  let start := search_start date preferred_time
  searchLoop day_end duration existing_events
    ((day_end - start).toNat / 30 + 2) start

/-! ## Fallback search (`find_slot_on_nearby_dates`) -/

/-- The `for week_offset in [1, -1, 2, -2, 3, -3, 4, -4]` loop:
`test_date = base_date + timedelta(weeks=offset)`, skipped when it leaves
`[start_date, end_date]`; the first successful day search is returned. -/
def nearbyLoop (base_date : Int) (preferred_time : TimeOfDay) (duration : Int)
    (existing_events : List BusyEvent) (end_date start_date : Int) :
    List Int → Option Slot
  | [] => none
  | offset :: rest =>
    let test_date := base_date + offset * 10080
    if test_date > end_date ∨ test_date < start_date then
      nearbyLoop base_date preferred_time duration existing_events
        end_date start_date rest
    else
      match find_available_slot_on_day test_date preferred_time duration
          existing_events with
      | some slot => some slot
      | none =>
        nearbyLoop base_date preferred_time duration existing_events
          end_date start_date rest

/-- Embeds `find_slot_on_nearby_dates(base_date, preferred_time, duration,
existing_events, end_date, start_date)` from `src/scheduler.py`. -/
def find_slot_on_nearby_dates (base_date : Int) (preferred_time : TimeOfDay)
    (duration : Int) (existing_events : List BusyEvent)
    (end_date start_date : Int) : Option Slot :=
  nearbyLoop base_date preferred_time duration existing_events
    end_date start_date [1, -1, 2, -2, 3, -3, 4, -4]

/-! ## Orchestrator (`find_optimal_slots`) -/

/-- Embeds `normalize_events_timezone(events)`: `astimezone` does not move the
instant an aware datetime denotes, so on instants it rebuilds each event
unchanged. -/
def normalize_events_timezone (events : List BusyEvent) : List BusyEvent :=
  events.map fun e => { summary := e.summary, start := e.start, «end» := e.«end» }

/-- The `for base_date in candidate_dates` loop of `find_optimal_slots`:
day search first, fallback on failure, dropped candidates leave no slot. -/
def slotsLoop (preferred_time : TimeOfDay) (duration : Int)
    (events : List BusyEvent) (end_date now : Int) : List Int → List Slot
  | [] => []
  | base_date :: rest =>
    match find_available_slot_on_day base_date preferred_time duration events with
    | some slot => slot :: slotsLoop preferred_time duration events end_date now rest
    | none =>
      match find_slot_on_nearby_dates base_date preferred_time duration events
          end_date now with
      | some slot => slot :: slotsLoop preferred_time duration events end_date now rest
      | none => slotsLoop preferred_time duration events end_date now rest

/-- Embeds `find_optimal_slots(existing_events, preferred_time, duration, recurrence,
months_ahead)` from `src/scheduler.py`.  The source reads the wall clock
(`datetime.now(EST)`); that impure input is the explicit parameter `now`. -/
def find_optimal_slots (now : Int) (existing_events : List BusyEvent)
    (preferred_time : TimeOfDay) (duration : Int) (recurrence : String)
    (months_ahead : Int) : List Slot :=
  let events := normalize_events_timezone existing_events
  let end_date := addMonths now months_ahead
  let candidate_dates := generate_candidate_dates now end_date recurrence
  slotsLoop preferred_time duration events end_date now candidate_dates

/-! ## Supporting lemmas -/

/-- The event loop of `has_conflict` is the open-interval overlap test applied
to every event: the coarse skip only drops events that fail the test. -/
theorem conflictLoop_eq_any (ss se : Int) (events : List BusyEvent) :
    conflictLoop ss se events =
      events.any fun e => decide (ss < e.«end» ∧ se > e.start) := by
  induction events with
  | nil => rfl
  | cons e rest ih =>
    simp only [conflictLoop, List.any_cons, ih]
    by_cases h1 : e.«end» < ss ∨ e.start > se
    · rw [if_pos h1]
      have h2 : ¬(ss < e.«end» ∧ se > e.start) := by omega
      simp [h2]
    · rw [if_neg h1]
      by_cases h2 : ss < e.«end» ∧ se > e.start
      · simp [h2]
      · simp [h2]

/-- A conflict-free verdict means no buffered overlap with any event. -/
theorem has_conflict_eq_false_iff (slot : Slot) (events : List BusyEvent) :
    has_conflict slot events = false ↔
      ∀ e ∈ events, ¬(slot.start - 15 < e.«end» ∧ slot.«end» + 15 > e.start) := by
  simp [has_conflict, conflictLoop_eq_any, List.any_eq_false]

/-- Whatever the day scan returns started at or after the scan origin, fits
before `day_end`, has exactly the requested length, and is conflict-free. -/
theorem searchLoop_some {day_end duration : Int} {events : List BusyEvent} :
    ∀ {fuel : Nat} {current : Int} {slot : Slot},
      searchLoop day_end duration events fuel current = some slot →
      current ≤ slot.start ∧ slot.start < day_end ∧
        slot.«end» = slot.start + duration ∧ slot.«end» ≤ day_end ∧
        has_conflict slot events = false := by
  intro fuel
  induction fuel with
  | zero => intro current slot h; simp [searchLoop] at h
  | succ n ih =>
    intro current slot h
    simp only [searchLoop] at h
    split at h
    · split at h
      · exact absurd h (by simp)
      · split at h
        · obtain ⟨h1, h2, h3, h4, h5⟩ := ih h
          exact ⟨by omega, h2, h3, h4, h5⟩
        · rename_i hlt hfit hc
          cases h
          refine ⟨le_refl _, hlt, rfl, ?_, by simpa using hc⟩
          show current + duration ≤ day_end
          omega
    · exact absurd h (by simp)

/-- Extra fuel beyond the loop bound does not change the day scan: with
`(day_end - current).toNat ≤ 30 * fuel` the scan has already settled. -/
theorem searchLoop_fuel_stable (day_end duration : Int) (events : List BusyEvent) :
    ∀ (fuel : Nat) (current : Int), (day_end - current).toNat ≤ 30 * fuel →
      searchLoop day_end duration events (fuel + 1) current =
        searchLoop day_end duration events fuel current := by
  intro fuel
  induction fuel with
  | zero =>
    intro current hb
    simp only [searchLoop]
    rw [if_neg (by omega)]
  | succ n ih =>
    intro current hb
    conv_lhs => rw [searchLoop]
    conv_rhs => rw [searchLoop]
    by_cases h1 : current < day_end
    · rw [if_pos h1, if_pos h1]
      by_cases h2 : current + duration > day_end
      · rw [if_pos h2, if_pos h2]
      · rw [if_neg h2, if_neg h2]
        by_cases h3 : has_conflict ⟨current, current + duration⟩ events
        · rw [if_pos h3, if_pos h3]
          exact ih (current + 30) (by omega)
        · rw [if_neg h3, if_neg h3]
    · rw [if_neg h1, if_neg h1]

/-- The scan origin lies within business hours whenever the preferred time is
a valid clock time. -/
theorem search_start_bounds (date : Int) (pref : TimeOfDay)
    (hm : pref.minute < 60) :
    dateMidnight date + 540 ≤ search_start date pref ∧
      search_start date pref < dateMidnight date + 1020 := by
  unfold search_start
  by_cases h : 9 ≤ pref.hour ∧ pref.hour < 17
  · rw [if_pos h]
    omega
  · rw [if_neg h]
    omega

/-- Midnight instants are multiples of a day. -/
theorem dateMidnight_mod (t : Int) : dateMidnight t % 1440 = 0 := by
  unfold dateMidnight
  omega

/-- Shape of any slot returned by the day search. -/
theorem find_available_slot_on_day_some {date : Int} {pref : TimeOfDay}
    {duration : Int} {events : List BusyEvent} {slot : Slot}
    (h : find_available_slot_on_day date pref duration events = some slot) :
    search_start date pref ≤ slot.start ∧
      slot.start < dateMidnight date + 1020 ∧
      slot.«end» = slot.start + duration ∧
      slot.«end» ≤ dateMidnight date + 1020 ∧
      has_conflict slot events = false := by
  unfold find_available_slot_on_day at h
  have := searchLoop_some h
  exact ⟨this.1, by omega, this.2.2.1, by omega, this.2.2.2.2⟩

/-- Every slot the fallback produces comes from a day search on some date. -/
theorem nearbyLoop_some {base_date : Int} {pref : TimeOfDay} {duration : Int}
    {events : List BusyEvent} {end_date start_date : Int} :
    ∀ {l : List Int} {slot : Slot},
      nearbyLoop base_date pref duration events end_date start_date l = some slot →
      ∃ t, find_available_slot_on_day t pref duration events = some slot := by
  intro l
  induction l with
  | nil => intro slot h; simp [nearbyLoop] at h
  | cons o rest ih =>
    intro slot h
    simp only [nearbyLoop] at h
    split at h
    · exact ih h
    · split at h
      · rename_i heq
        cases h
        exact ⟨base_date + o * 10080, heq⟩
      · exact ih h

/-- Every slot the orchestrator loop accepts comes from a day search on some
date (directly, or through the fallback). -/
theorem slotsLoop_mem {pref : TimeOfDay} {duration : Int}
    {events : List BusyEvent} {end_date now : Int} :
    ∀ {dates : List Int} {slot : Slot},
      slot ∈ slotsLoop pref duration events end_date now dates →
      ∃ t, find_available_slot_on_day t pref duration events = some slot := by
  intro dates
  induction dates with
  | nil => intro slot h; simp [slotsLoop] at h
  | cons d rest ih =>
    intro slot h
    simp only [slotsLoop] at h
    split at h
    · rename_i heq
      rcases List.mem_cons.1 h with hh | hh
      · exact ⟨d, hh ▸ heq⟩
      · exact ih hh
    · split at h
      · rename_i heq
        rcases List.mem_cons.1 h with hh | hh
        · obtain ⟨t, ht⟩ := nearbyLoop_some heq
          exact ⟨t, hh ▸ ht⟩
        · exact ih hh
      · exact ih h

/-- The day `firstThursdayDay y m` is the first Thursday of its month: a Thursday
(day number divisible by 7) in the first week of the month, and no earlier
day of the month is a Thursday. -/
theorem firstThursdayDay_spec (y m : Int) :
    daysFromCivil y m 1 ≤ firstThursdayDay y m ∧
      firstThursdayDay y m < daysFromCivil y m 1 + 7 ∧
      firstThursdayDay y m % 7 = 0 ∧
      ∀ d, daysFromCivil y m 1 ≤ d → d % 7 = 0 → firstThursdayDay y m ≤ d := by
  have h : firstThursdayDay y m =
      daysFromCivil y m 1 + (-(daysFromCivil y m 1)) % 7 := rfl
  rw [h]
  refine ⟨by omega, by omega, by omega, fun d hd h0 => by omega⟩

/-- Every monthly occurrence lies in `[dtstart, untl]`, keeps `dtstart`'s
time of day, and falls on a day picked by `pick` for some valid month
(the month-number invariant `1 ≤ m ≤ 12` is preserved by the iteration). -/
theorem monthlyAux_mem {pick : Int → Int → Int} {dtstart untl : Int} :
    ∀ {fuel : Nat} {y m t : Int}, 1 ≤ m → m ≤ 12 →
      t ∈ monthlyAux pick dtstart untl fuel y m →
      dtstart ≤ t ∧ t ≤ untl ∧ t % 1440 = dtstart % 1440 ∧
        ∃ y2 m2, 1 ≤ m2 ∧ m2 ≤ 12 ∧ t / 1440 = pick y2 m2 := by
  intro fuel
  induction fuel with
  | zero => intro y m t _ _ h; simp [monthlyAux] at h
  | succ n ih =>
    intro y m t hma hmb h
    simp only [monthlyAux] at h
    split at h
    · simp at h
    · rename_i hle
      have hnext1 : (1 : Int) ≤ (if m = 12 then (1 : Int) else m + 1) := by
        by_cases h12 : m = 12 <;> (simp [h12]; try omega)
      have hnext2 : (if m = 12 then (1 : Int) else m + 1) ≤ 12 := by
        by_cases h12 : m = 12 <;> (simp [h12]; try omega)
      split at h
      · rename_i hge
        rcases List.mem_cons.1 h with hh | hh
        · subst hh
          exact ⟨hge, by omega, by omega, y, m, hma, hmb, by omega⟩
        · exact ih hnext1 hnext2 hh
      · exact ih hnext1 hnext2 h

/-- Every month has between 28 and 31 days. -/
theorem daysInMonth_bounds (y m : Int) :
    28 ≤ daysInMonth y m ∧ daysInMonth y m ≤ 31 := by
  unfold daysInMonth
  split_ifs <;> omega

set_option maxHeartbeats 1000000 in
/-- The first day of the next calendar month comes exactly `daysInMonth`
days after the first day of the current month. -/
theorem daysFromCivil_next_month (y m : Int) (h1 : 1 ≤ m) (h2 : m ≤ 12) :
    daysFromCivil (if m = 12 then y + 1 else y) (if m = 12 then 1 else m + 1) 1 =
      daysFromCivil y m 1 + daysInMonth y m := by
  interval_cases m <;>
    (norm_num [daysFromCivil, daysInMonth, isLeap]; (try split_ifs) <;> omega)

/-- The Gregorian calendar repeats every 400 years = 146097 days:
January first of year `1970 + 400e` is day number `146097 e`. -/
theorem daysFromCivil_anchor (e : Int) :
    daysFromCivil (1970 + 400 * e) 1 1 = 146097 * e := by
  norm_num [daysFromCivil]
  omega

/-- Walking forward from any valid month that starts at or before `z`, with
fuel exceeding the remaining distance in 28-day steps, lands exactly on the
month containing `z`. -/
theorem monthWalkAux_spec (z : Int) :
    ∀ (fuel : Nat) (y m : Int), 1 ≤ m → m ≤ 12 →
      daysFromCivil y m 1 ≤ z →
      z - daysFromCivil y m 1 < 28 * fuel →
      1 ≤ (monthWalkAux z fuel y m).2 ∧ (monthWalkAux z fuel y m).2 ≤ 12 ∧
        daysFromCivil (monthWalkAux z fuel y m).1 (monthWalkAux z fuel y m).2 1 ≤ z ∧
        z < daysFromCivil (monthWalkAux z fuel y m).1 (monthWalkAux z fuel y m).2 1 +
          daysInMonth (monthWalkAux z fuel y m).1 (monthWalkAux z fuel y m).2 := by
  intro fuel
  induction fuel with
  | zero =>
    intro y m hma hmb hlo hfu
    exact absurd hfu (by omega)
  | succ n ih =>
    intro y m hma hmb hlo hfu
    rw [monthWalkAux]
    split
    · rename_i hin
      exact ⟨hma, hmb, hlo, hin⟩
    · rename_i hout
      have hnm := daysFromCivil_next_month y m hma hmb
      have hb := daysInMonth_bounds y m
      refine ih _ _ ?_ ?_ ?_ ?_
      · by_cases h12 : m = 12 <;> (simp [h12]; try omega)
      · by_cases h12 : m = 12 <;> (simp [h12]; try omega)
      · omega
      · omega

/-- `monthOf z` is the month containing day `z`: a valid month whose first
day is at or before `z` and whose last day is at or after `z`. -/
theorem monthOf_spec (z : Int) :
    1 ≤ (monthOf z).2 ∧ (monthOf z).2 ≤ 12 ∧
      daysFromCivil (monthOf z).1 (monthOf z).2 1 ≤ z ∧
      z < daysFromCivil (monthOf z).1 (monthOf z).2 1 +
        daysInMonth (monthOf z).1 (monthOf z).2 := by
  have ha := daysFromCivil_anchor (z / 146097)
  refine monthWalkAux_spec z 5300 (1970 + 400 * (z / 146097)) 1 (by omega) (by omega)
    ?_ ?_
  · omega
  · omega

/-- Month starts grow by at least 28 days per month of index distance
(month index = `12 y + m`). -/
theorem daysFromCivil_growth :
    ∀ (n : Nat) (y m y2 m2 : Int), 1 ≤ m → m ≤ 12 → 1 ≤ m2 → m2 ≤ 12 →
      12 * y2 + m2 = 12 * y + m + n →
      daysFromCivil y m 1 + 28 * n ≤ daysFromCivil y2 m2 1 := by
  intro n
  induction n with
  | zero =>
    intro y m y2 m2 hma hmb hm2a hm2b hidx
    have hym : y2 = y ∧ m2 = m := by omega
    obtain ⟨hy, hm⟩ := hym
    subst hy; subst hm
    omega
  | succ k ih =>
    intro y m y2 m2 hma hmb hm2a hm2b hidx
    have hnm := daysFromCivil_next_month y m hma hmb
    have hb := daysInMonth_bounds y m
    have hstep := ih (if m = 12 then y + 1 else y) (if m = 12 then 1 else m + 1) y2 m2
      (by by_cases h12 : m = 12 <;> (simp [h12]; try omega))
      (by by_cases h12 : m = 12 <;> (simp [h12]; try omega))
      hm2a hm2b
      (by by_cases h12 : m = 12 <;> (simp [h12]; try omega))
    omega

/-- A month strictly earlier in index order ends at or before the start of a
later month. -/
theorem month_before (y m y2 m2 : Int) (hma : 1 ≤ m) (hmb : m ≤ 12)
    (hm2a : 1 ≤ m2) (hm2b : m2 ≤ 12) (hlt : 12 * y + m < 12 * y2 + m2) :
    daysFromCivil y m 1 + daysInMonth y m ≤ daysFromCivil y2 m2 1 := by
  have hnm := daysFromCivil_next_month y m hma hmb
  have hg := daysFromCivil_growth (12 * y2 + m2 - (12 * y + m) - 1).toNat
    (if m = 12 then y + 1 else y) (if m = 12 then 1 else m + 1) y2 m2
    (by by_cases h12 : m = 12 <;> (simp [h12]; try omega))
    (by by_cases h12 : m = 12 <;> (simp [h12]; try omega))
    hm2a hm2b
    (by by_cases h12 : m = 12 <;> (simp [h12]; try omega))
  omega

/-- First Thursdays are strictly increasing across months. -/
theorem firstThursdayDay_lt (y m y2 m2 : Int) (hma : 1 ≤ m) (hmb : m ≤ 12)
    (hm2a : 1 ≤ m2) (hm2b : m2 ≤ 12) (hlt : 12 * y + m < 12 * y2 + m2) :
    firstThursdayDay y m < firstThursdayDay y2 m2 := by
  have h1 := firstThursdayDay_spec y m
  have h2 := firstThursdayDay_spec y2 m2
  have hb := daysInMonth_bounds y m
  have hmb2 := month_before y m y2 m2 hma hmb hm2a hm2b hlt
  omega

/-- Completeness of the monthly iteration for the first-Thursday pick: any
first-Thursday instant in `[dtstart, untl]` whose month is at or after the
iteration's current month is emitted, given fuel exceeding the month
distance. -/
theorem monthlyAux_complete (dtstart untl t y2 m2 : Int)
    (hm2a : 1 ≤ m2) (hm2b : m2 ≤ 12)
    (hteq : t = firstThursdayDay y2 m2 * 1440 + dtstart % 1440)
    (htlo : dtstart ≤ t) (hthi : t ≤ untl) :
    ∀ (fuel : Nat) (y m : Int), 1 ≤ m → m ≤ 12 →
      12 * y + m ≤ 12 * y2 + m2 →
      (12 * y2 + m2 - (12 * y + m)).toNat < fuel →
      t ∈ monthlyAux firstThursdayDay dtstart untl fuel y m := by
  intro fuel
  induction fuel with
  | zero =>
    intro y m _ _ _ hfu
    exact absurd hfu (by omega)
  | succ n ih =>
    intro y m hma hmb hidx hfu
    simp only [monthlyAux]
    by_cases heq : 12 * y + m = 12 * y2 + m2
    · have hym : y = y2 ∧ m = m2 := by omega
      obtain ⟨hy, hm⟩ := hym
      subst hy; subst hm
      rw [if_neg (by omega), if_pos (by omega)]
      rw [hteq]
      exact List.mem_cons_self _ _
    · have hlt := firstThursdayDay_lt y m y2 m2 hma hmb hm2a hm2b (by omega)
      have hnext : (1 : Int) ≤ (if m = 12 then (1 : Int) else m + 1) ∧
          (if m = 12 then (1 : Int) else m + 1) ≤ 12 ∧
          12 * (if m = 12 then y + 1 else y) + (if m = 12 then (1 : Int) else m + 1) =
            12 * y + m + 1 := by
        by_cases h12 : m = 12 <;> (simp [h12]; try omega)
      obtain ⟨hn1, hn2, hn3⟩ := hnext
      have hrest := ih (if m = 12 then y + 1 else y) (if m = 12 then (1 : Int) else m + 1)
        hn1 hn2 (by omega) (by omega)
      rw [if_neg (by omega)]
      split
      · exact List.mem_cons_of_mem _ hrest
      · exact hrest

/-- Backward direction of the first-Thursday characterization: every
first-Thursday instant at `dtstart`'s time of day within the window is
produced by the monthly iteration as the generator runs it. -/
theorem mem_monthly_first_thursday (now endt t y2 m2 : Int)
    (h1 : now ≤ t) (h2 : t ≤ endt) (h3 : t % 1440 = now % 1440)
    (hm2a : 1 ≤ m2) (hm2b : m2 ≤ 12)
    (hp : t / 1440 = firstThursdayDay y2 m2) :
    t ∈ monthlyAux firstThursdayDay now endt ((endt - now).toNat / 40320 + 6)
      (monthOf (now / 1440)).1 (monthOf (now / 1440)).2 := by
  have hteq : t = firstThursdayDay y2 m2 * 1440 + now % 1440 := by omega
  obtain ⟨c1, c2, c3, c4⟩ := monthOf_spec (now / 1440)
  have hts := firstThursdayDay_spec y2 m2
  have hb2 := daysInMonth_bounds y2 m2
  have hidx : 12 * (monthOf (now / 1440)).1 + (monthOf (now / 1440)).2 ≤
      12 * y2 + m2 := by
    by_contra hcon
    push_neg at hcon
    have hbefore := month_before y2 m2 (monthOf (now / 1440)).1 (monthOf (now / 1440)).2
      hm2a hm2b c1 c2 hcon
    omega
  have hg := daysFromCivil_growth
    (12 * y2 + m2 - (12 * (monthOf (now / 1440)).1 + (monthOf (now / 1440)).2)).toNat
    (monthOf (now / 1440)).1 (monthOf (now / 1440)).2 y2 m2 c1 c2 hm2a hm2b (by omega)
  have hb0 := daysInMonth_bounds (monthOf (now / 1440)).1 (monthOf (now / 1440)).2
  have hfuel : (12 * y2 + m2 -
      (12 * (monthOf (now / 1440)).1 + (monthOf (now / 1440)).2)).toNat <
      (endt - now).toNat / 40320 + 6 := by omega
  exact monthlyAux_complete now endt t y2 m2 hm2a hm2b hteq h1 h2
    ((endt - now).toNat / 40320 + 6) (monthOf (now / 1440)).1 (monthOf (now / 1440)).2
    c1 c2 hidx hfuel

/-- The fallback loop is a first-hit search over its offset list. -/
theorem nearbyLoop_eq_findSome (base_date : Int) (pref : TimeOfDay)
    (duration : Int) (events : List BusyEvent) (end_date start_date : Int) :
    ∀ l : List Int,
      nearbyLoop base_date pref duration events end_date start_date l =
        l.findSome? fun o =>
          if start_date ≤ base_date + o * 10080 ∧ base_date + o * 10080 ≤ end_date
          then find_available_slot_on_day (base_date + o * 10080) pref duration
            events
          else none := by
  intro l
  induction l with
  | nil => rfl
  | cons o rest ih =>
    rw [List.findSome?_cons]
    simp only [nearbyLoop]
    by_cases h : base_date + o * 10080 > end_date ∨ base_date + o * 10080 < start_date
    · rw [if_pos h, if_neg (by omega)]
      exact ih
    · rw [if_neg h, if_pos (by omega)]
      cases hf : find_available_slot_on_day (base_date + o * 10080) pref duration
          events with
      | none => exact ih
      | some s => rfl

/-! ## Claims -/

/-- Claim C1 (confirmed).  For every slot in the sequence returned by
`find_optimal_slots` and every busy event in the normalized input set,
expanding the slot by 15 minutes at each end yields a window that does not
overlap the busy event under open-interval comparison — both for slots found
by the day search on the canonical date and for slots from the fallback
search, since every accepted slot passed `has_conflict` against the same
normalized event set. -/
theorem optimal_slots_respect_buffer (now : Int) (existing_events : List BusyEvent)
    (pref : TimeOfDay) (duration : Int) (recurrence : String) (months_ahead : Int)
    (slot : Slot) (e : BusyEvent)
    (hs : slot ∈ find_optimal_slots now existing_events pref duration recurrence
      months_ahead)
    (he : e ∈ normalize_events_timezone existing_events) :
    ¬(slot.start - 15 < e.«end» ∧ slot.«end» + 15 > e.start) := by
  unfold find_optimal_slots at hs
  obtain ⟨t, ht⟩ := slotsLoop_mem hs
  exact (has_conflict_eq_false_iff slot (normalize_events_timezone existing_events)).1
    (find_available_slot_on_day_some ht).2.2.2.2 e he

/-- Claim C1, witness: a concrete run in which the returned slot 11:30–12:30
clears the 10:00–11:00 busy event by the required buffer. -/
theorem optimal_slots_respect_buffer_witness :
    ((⟨29460210, 29460270⟩ : Slot) ∈
        find_optimal_slots 29460060 [⟨"e", 29460120, 29460180⟩] ⟨9, 0⟩ 60 "Weekly" 1 ∧
      (⟨"e", 29460120, 29460180⟩ : BusyEvent) ∈
        normalize_events_timezone [⟨"e", 29460120, 29460180⟩]) ∧
      ¬((29460210 : Int) - 15 < 29460180 ∧ (29460270 : Int) + 15 > 29460120) :=
  ⟨⟨by decide, by decide⟩,
    optimal_slots_respect_buffer 29460060 [⟨"e", 29460120, 29460180⟩] ⟨9, 0⟩ 60
      "Weekly" 1 ⟨29460210, 29460270⟩ ⟨"e", 29460120, 29460180⟩ (by decide) (by decide)⟩

/-- Claim C4 (confirmed).  Every slot accepted by the day search or the fallback
search (with positive duration and a valid preferred time) has length exactly
`duration`, starts at or after 09:00, and ends at or before 17:00 (times of
day taken modulo one day, in the reference timezone). -/
theorem accepted_slot_duration_and_business_hours (pref : TimeOfDay)
    (duration : Int) (events : List BusyEvent) (slot : Slot)
    (hd : 0 < duration) (hm : pref.minute < 60) :
    (∀ date, find_available_slot_on_day date pref duration events = some slot →
      slot.«end» - slot.start = duration ∧
        540 ≤ slot.start % 1440 ∧ slot.«end» % 1440 ≤ 1020) ∧
    ∀ base_date end_date start_date,
      find_slot_on_nearby_dates base_date pref duration events end_date start_date
          = some slot →
      slot.«end» - slot.start = duration ∧
        540 ≤ slot.start % 1440 ∧ slot.«end» % 1440 ≤ 1020 := by
  have key : ∀ date, find_available_slot_on_day date pref duration events
      = some slot →
      slot.«end» - slot.start = duration ∧
        540 ≤ slot.start % 1440 ∧ slot.«end» % 1440 ≤ 1020 := by
    intro date h
    obtain ⟨h1, h2, h3, h4, -⟩ := find_available_slot_on_day_some h
    obtain ⟨s1, s2⟩ := search_start_bounds date pref hm
    have hm0 := dateMidnight_mod date
    omega
  refine ⟨key, fun base_date end_date start_date h => ?_⟩
  unfold find_slot_on_nearby_dates at h
  obtain ⟨t, ht⟩ := nearbyLoop_some h
  exact key t ht

/-- Claim C4, witness: the 09:00–10:00 slot returned on a free day. -/
theorem accepted_slot_duration_and_business_hours_witness :
    ((0 : Int) < 60 ∧ (⟨9, 0⟩ : TimeOfDay).minute < 60 ∧
        find_available_slot_on_day 29460060 ⟨9, 0⟩ 60 [] =
          some ⟨29460060, 29460120⟩) ∧
      ((29460120 : Int) - 29460060 = 60 ∧ 540 ≤ (29460060 : Int) % 1440 ∧
        (29460120 : Int) % 1440 ≤ 1020) :=
  ⟨⟨by decide, by decide, by decide⟩,
    (accepted_slot_duration_and_business_hours ⟨9, 0⟩ 60 [] ⟨29460060, 29460120⟩
        (by decide) (by decide)).1 29460060 (by decide)⟩

/-- Claim C5 (confirmed).  `has_conflict` reports a conflict exactly when some
event overlaps the 15-minute-expanded slot under open-interval comparison; in
particular an event ending exactly 15 minutes before the slot start never
conflicts, while one ending 14 minutes before (whose start precedes the
expanded end) always does. -/
theorem buffer_boundary_conflicts :
    (∀ (slot : Slot) (events : List BusyEvent),
      has_conflict slot events = true ↔
        ∃ e ∈ events, slot.start - 15 < e.«end» ∧ slot.«end» + 15 > e.start) ∧
    (∀ (slot : Slot) (e : BusyEvent), e.«end» = slot.start - 15 →
      has_conflict slot [e] = false) ∧
    ∀ (slot : Slot) (e : BusyEvent), e.«end» = slot.start - 14 →
      e.start < slot.«end» + 15 → has_conflict slot [e] = true := by
  have hrw : ∀ (slot : Slot) (events : List BusyEvent),
      has_conflict slot events =
        events.any fun e => decide (slot.start - 15 < e.«end» ∧
          slot.«end» + 15 > e.start) := by
    intro slot events
    exact conflictLoop_eq_any (slot.start - 15) (slot.«end» + 15) events
  refine ⟨fun slot events => ?_, fun slot e he => ?_, fun slot e he hs => ?_⟩
  · rw [hrw]
    simp [List.any_eq_true]
  · rw [hrw]
    simp only [List.any_cons, List.any_nil, Bool.or_false]
    simp only [decide_eq_false_iff_not]
    omega
  · rw [hrw]
    simp only [List.any_cons, List.any_nil, Bool.or_false]
    simp only [decide_eq_true_eq]
    omega

/-- Claim C5, witness: slot 1000–1060; an event ending at 985 (= start − 15) is
accepted, one ending at 986 (= start − 14) conflicts. -/
theorem buffer_boundary_conflicts_witness :
    has_conflict ⟨1000, 1060⟩ [⟨"a", 900, 985⟩] = false ∧
      has_conflict ⟨1000, 1060⟩ [⟨"b", 900, 986⟩] = true :=
  ⟨buffer_boundary_conflicts.2.1 ⟨1000, 1060⟩ ⟨"a", 900, 985⟩ (by decide),
    buffer_boundary_conflicts.2.2 ⟨1000, 1060⟩ ⟨"b", 900, 986⟩ (by decide) (by decide)⟩

/-- Claim C10 (confirmed).  The coarse pre-check in `has_conflict` is a pure
optimization: the detector with the skip returns the same boolean as the
plain detector that applies the open-interval overlap test to every event. -/
theorem coarse_precheck_is_pure_optimization (slot : Slot)
    (events : List BusyEvent) :
    has_conflict slot events = plain_conflict slot events :=
  conflictLoop_eq_any (slot.start - 15) (slot.«end» + 15) events

/-- Claim C9 (confirmed).  The day scan starts at `date + preferredTime` exactly
when the preferred time lies in [09:00, 17:00) (with a valid minute field, the
source's hour test coincides with the clock-time test), and otherwise at
09:00; in particular 08:00 starts the scan at 09:00. -/
theorem search_starts_at_preferred_or_nine (date : Int) (pref : TimeOfDay)
    (hm : pref.minute < 60) :
    (search_start date pref =
      if 540 ≤ (pref.hour : Int) * 60 + (pref.minute : Int) ∧
          (pref.hour : Int) * 60 + (pref.minute : Int) < 1020 then
        dateMidnight date + ((pref.hour : Int) * 60 + (pref.minute : Int))
      else dateMidnight date + 540) ∧
    search_start date ⟨8, 0⟩ = dateMidnight date + 540 := by
  constructor
  · unfold search_start
    by_cases h : 9 ≤ pref.hour ∧ pref.hour < 17
    · rw [if_pos h, if_pos (by omega)]
    · rw [if_neg h, if_neg (by omega)]
      norm_num
  · norm_num [search_start]

/-- Claim C9, witness: preferred time 08:00 on day 0. -/
theorem search_starts_at_preferred_or_nine_witness :
    ((⟨8, 0⟩ : TimeOfDay).minute < 60) ∧
      ((search_start 0 ⟨8, 0⟩ =
          if 540 ≤ (8 : Int) * 60 + (0 : Int) ∧ (8 : Int) * 60 + (0 : Int) < 1020
          then dateMidnight 0 + ((8 : Int) * 60 + (0 : Int))
          else dateMidnight 0 + 540) ∧
        search_start 0 ⟨8, 0⟩ = dateMidnight 0 + 540) :=
  ⟨by decide, search_starts_at_preferred_or_nine 0 ⟨8, 0⟩ (by decide)⟩

/-- Claim C6 (confirmed).  The fallback search tries week offsets in exactly the
order `[+1, -1, +2, -2, +3, -3, +4, -4]`, computes `testDate = baseDate +
offset*7 days`, silently skips test dates outside `[startDate, endDate]`,
runs the day search on the rest, and returns the first slot so found (`none`
when all offsets are exhausted or skipped). -/
theorem fallback_tries_week_offsets_in_order (base_date : Int) (pref : TimeOfDay)
    (duration : Int) (events : List BusyEvent) (end_date start_date : Int) :
    find_slot_on_nearby_dates base_date pref duration events end_date start_date =
      ([1, -1, 2, -2, 3, -3, 4, -4] : List Int).findSome? fun o =>
        if start_date ≤ base_date + o * 10080 ∧ base_date + o * 10080 ≤ end_date
        then find_available_slot_on_day (base_date + o * 10080) pref duration events
        else none :=
  nearbyLoop_eq_findSome base_date pref duration events end_date start_date
    [1, -1, 2, -2, 3, -3, 4, -4]

/-- Claim C2, counterexample: an unrecognized pattern string produces a
candidate-date sequence (the weekly one) instead of any `InvalidPattern`
failure — `generate_candidate_dates` has no error outcome at all. -/
theorem unrecognized_pattern_yields_dates :
    generate_candidate_dates 0 20160 "Every day" = [0, 10080, 20160] := by decide

/-- Claim C2 (amended).  A recurrence pattern outside the closed supported set
is not rejected: `generate_candidate_dates` silently treats it exactly like
"Weekly" (the source's `else` branch), producing the weekly candidate-date
sequence; no `InvalidPattern` error exists. -/
theorem unrecognized_pattern_treated_as_weekly (start_date end_date : Int)
    (p : String)
    (h1 : p ≠ "First Thursday of each month")
    (h2 : p ≠ "Last Friday of each month")
    (h3 : p ≠ "Every two weeks") :
    generate_candidate_dates start_date end_date p =
      generate_candidate_dates start_date end_date "Weekly" := by
  unfold generate_candidate_dates
  rw [if_neg h1, if_neg h2, if_neg h3, if_neg (by decide), if_neg (by decide),
    if_neg (by decide)]

/-- Claim C2, witness: the pattern "Every day" is outside the supported set and
behaves like "Weekly". -/
theorem unrecognized_pattern_treated_as_weekly_witness :
    (("Every day" : String) ≠ "First Thursday of each month" ∧
        ("Every day" : String) ≠ "Last Friday of each month" ∧
        ("Every day" : String) ≠ "Every two weeks") ∧
      generate_candidate_dates 0 20160 "Every day" =
        generate_candidate_dates 0 20160 "Weekly" :=
  ⟨⟨by decide, by decide, by decide⟩,
    unrecognized_pattern_treated_as_weekly 0 20160 "Every day" (by decide)
      (by decide) (by decide)⟩

/-- Claim C3, counterexample: with `duration = 0` (≤ 0) the orchestrator returns
a result sequence — five zero-length slots — rather than failing; no
`InvalidDuration` check exists anywhere in the core. -/
theorem zero_duration_returns_slots :
    (find_optimal_slots 29635200 [] ⟨9, 0⟩ 0 "Weekly" 1).length = 5 ∧
      (find_optimal_slots 29635200 [] ⟨9, 0⟩ 0 "Weekly" 1)[0]? =
        some ⟨29635740, 29635740⟩ := by decide

/-- Claim C3 (amended).  The core performs no duration validation: for
`duration ≤ 0` (and a valid preferred time) the day search happily returns a
degenerate slot of nonpositive length at its scan origin instead of failing
with `InvalidDuration`. -/
theorem nonpositive_duration_not_rejected (date : Int) (pref : TimeOfDay)
    (duration : Int) (hd : duration ≤ 0) (hm : pref.minute < 60) :
    find_available_slot_on_day date pref duration [] =
      some ⟨search_start date pref, search_start date pref + duration⟩ := by
  obtain ⟨s1, s2⟩ := search_start_bounds date pref hm
  have hstep : find_available_slot_on_day date pref duration [] =
      searchLoop (dateMidnight date + 17 * 60) duration []
        (((dateMidnight date + 17 * 60 - search_start date pref).toNat / 30 + 1) + 1)
        (search_start date pref) := rfl
  rw [hstep]
  simp only [searchLoop]
  rw [if_pos (by omega), if_neg (by omega),
    if_neg (by simp [has_conflict, conflictLoop])]

/-- Claim C3, witness: duration −30 on day 0 yields the degenerate slot
09:00–08:30 instead of an error. -/
theorem nonpositive_duration_not_rejected_witness :
    ((-30 : Int) ≤ 0 ∧ (⟨9, 0⟩ : TimeOfDay).minute < 60) ∧
      find_available_slot_on_day 0 ⟨9, 0⟩ (-30) [] = some ⟨540, 510⟩ :=
  ⟨⟨by decide, by decide⟩,
    nonpositive_duration_not_rejected 0 ⟨9, 0⟩ (-30) (by decide) (by decide)⟩

set_option maxRecDepth 100000 in
/-- Claim C7, counterexample: `now` = 2026-05-07T00:00 (the first Thursday of a
month that starts on a Friday) with a 3-month horizon; the generator yields
**4** first-Thursday candidates (2026-05-07, 2026-06-04, 2026-07-02,
2026-08-06), not exactly 3. -/
theorem first_thursday_horizon_three_four_dates :
    addMonths 29635200 3 = 29767680 ∧
      (generate_candidate_dates 29635200 29767680
          "First Thursday of each month").length = 4 := by decide

/-- Claim C7 (amended).  For the first-Thursday pattern the generator returns
exactly the instants at `now`'s time of day that fall on the first Thursday
of a calendar month and lie within `[now, end]` — every such occurrence
appears and nothing else (first conjunct, both directions).  The occurrence
in `now`'s month is dropped when it precedes `now`, and `end`'s month
contributes one exactly when its first Thursday is at or before `end`, so
the number of candidates for a 3-month horizon depends on `now` (the
counterexample above yields 4) instead of being always exactly 3.  The
second conjunct pins down `firstThursdayDay`: a Thursday (day number
divisible by 7) within the first seven days of its month, minimal among the
days at or after the month's first day that fall on a Thursday. -/
theorem first_thursday_candidates_iff (now endt t : Int) :
    (t ∈ generate_candidate_dates now endt "First Thursday of each month" ↔
      now ≤ t ∧ t ≤ endt ∧ t % 1440 = now % 1440 ∧
        ∃ y m, 1 ≤ m ∧ m ≤ 12 ∧ t / 1440 = firstThursdayDay y m) ∧
    ∀ y m, daysFromCivil y m 1 ≤ firstThursdayDay y m ∧
      firstThursdayDay y m < daysFromCivil y m 1 + 7 ∧
      firstThursdayDay y m % 7 = 0 ∧
      ∀ d, daysFromCivil y m 1 ≤ d → d % 7 = 0 → firstThursdayDay y m ≤ d := by
  have hgen : generate_candidate_dates now endt "First Thursday of each month" =
      monthlyAux firstThursdayDay now endt ((endt - now).toNat / 40320 + 6)
        (monthOf (now / 1440)).1 (monthOf (now / 1440)).2 := by
    unfold generate_candidate_dates
    rw [if_pos rfl]
    rfl
  obtain ⟨c1, c2, c3, c4⟩ := monthOf_spec (now / 1440)
  refine ⟨⟨?_, ?_⟩, firstThursdayDay_spec⟩
  · intro hmem
    rw [hgen] at hmem
    exact monthlyAux_mem c1 c2 hmem
  · rintro ⟨h1, h2, h3, y2, m2, hm2a, hm2b, hp⟩
    rw [hgen]
    exact mem_monthly_first_thursday now endt t y2 m2 h1 h2 h3 hm2a hm2b hp

set_option maxRecDepth 100000 in
/-- Claim C7, witness: the completeness direction applied to the 2026-05-07
candidate (day 20580, the first Thursday of May 2026). -/
theorem first_thursday_candidates_iff_witness :
    (29635200 : Int) ∈ generate_candidate_dates 29635200 29767680
        "First Thursday of each month" :=
  (first_thursday_candidates_iff 29635200 29767680 29635200).1.2
    ⟨by decide, by decide, by decide, 2026, 5, by decide, by decide, by decide⟩

/-- Claim C8 (confirmed).  The orchestrator can return two identical slots: with
the canonical 2026-01-05 candidate fully busy, the fallback borrows the
09:00–10:00 slot of 2026-01-12, which is then accepted again for the
2026-01-12 candidate itself — the conflict check never consults previously
accepted slots. -/
theorem orchestrator_can_duplicate_slots :
    (find_optimal_slots 29460060 [⟨"busy", 29459520, 29460960⟩] ⟨9, 0⟩ 60
        "Weekly" 1)[0]? = some ⟨29470140, 29470200⟩ ∧
      (find_optimal_slots 29460060 [⟨"busy", 29459520, 29460960⟩] ⟨9, 0⟩ 60
        "Weekly" 1)[1]? = some ⟨29470140, 29470200⟩ := by decide
